import Mathlib

/-!
Shallow embedding of the synonym detection and replacement engine of
`synonym_replacer.py` (class `SynonymReplacer`), together with proofs about
the claims of its specification.

Python strings are modelled as `List Char` (Python indexes by code point, so
`Nat` indices over a char list are exact).  Python dictionaries are modelled
as association lists where assignment appends a pair and lookup takes the
last matching pair (last assignment wins, exactly like `dict.__setitem__`).
Fallible Python code (KeyError from a dict subscript, ValueError from
`list.index`, NameError from reading a never-assigned local) is modelled
with `Except PyErr`.
-/

abbrev Str := List Char

/-- Python errors that the modelled code can raise. -/
inductive PyErr where
  | keyError
  | valueError
  | nameError
deriving DecidableEq, Repr

/-- `is_chinese` / `is_chinese_char`: U+4E00 ≤ c ≤ U+9FFF. -/
def is_chinese_char (c : Char) : Bool :=
  0x4e00 ≤ c.toNat && c.toNat ≤ 0x9fff

/-- `is_ascii_alphabet` in `_replace_text_internal`: an ASCII letter. -/
def is_ascii_alphabet (c : Char) : Bool :=
  (('a' ≤ c) && (c ≤ 'z')) || (('A' ≤ c) && (c ≤ 'Z'))

/-- ASCII digit. -/
def is_ascii_num (c : Char) : Bool :=
  ('0' ≤ c) && (c ≤ '9')

/-- The whitespace characters recognised by Python `str.strip`, `str.isspace`
and the regex class `\s` on the ASCII range (the inputs of this development
contain no exotic Unicode whitespace, for which Python would also answer
true). -/
def pyIsSpace (c : Char) : Bool :=
  c = ' ' || c = '\t' || c = '\n' || c = '\r' || c = Char.ofNat 0x0b || c = Char.ofNat 0x0c

/-- Python `str.lower` acts independently on each code point; on the code
points appearing in this vocabulary (ASCII letters, CJK, punctuation) it is
exactly the ASCII lowercase map. -/
def pyLowerChar (c : Char) : Char :=
  if ('A' ≤ c) && (c ≤ 'Z') then Char.ofNat (c.toNat + 32) else c

def pyLower (s : Str) : Str := s.map pyLowerChar

/-- Python `str.strip()` with no argument: drop whitespace on both ends. -/
def pyStrip (s : Str) : Str :=
  ((s.dropWhile pyIsSpace).reverse.dropWhile pyIsSpace).reverse

/-- Python slice `t[a:b]` (for `0 ≤ a ≤ b`). -/
def sliceP (t : Str) (a b : Nat) : Str := (t.drop a).take (b - a)

/-! ### Dictionaries -/

abbrev Dict := List (Str × Str)

/-- `d[k] = v`: modelled by appending; lookups read the last binding. -/
def dset (d : Dict) (k v : Str) : Dict := d ++ [(k, v)]

/-- `d.get(k)` / `d[k]`: the value of the last binding of `k`, if any. -/
def dget? (d : Dict) (k : Str) : Option Str :=
  (d.reverse.find? (fun p => p.1 == k)).map (·.2)

/-! ### `normalize_spaces`

The Python loop walks the text; at each run of spaces it looks at the
character before the run (`prev`) and the first character after it (`next`):
CJK on both sides deletes the run, otherwise the run collapses to a single
space.  Here the run is consumed one space at a time, deferring the decision
to the run's last space; `prev` is only updated on non-space characters, so
at decision time it is exactly the character preceding the run (`none` models
Python's `''` at the text border, which is neither Chinese nor English). -/

def isChineseO : Option Char → Bool
  | none => false
  | some c => is_chinese_char c

def isEnglishO : Option Char → Bool
  | none => false
  | some c => c.toNat ≤ 0x7f && (is_ascii_alphabet c)

def normLoop (prev : Option Char) : Str → Str
  | [] => []
  | c :: rest =>
    if c = ' ' then
      if rest.head? = some ' ' then normLoop prev rest
      else if isChineseO prev && isChineseO rest.head? then normLoop prev rest
      else if isEnglishO prev && isEnglishO rest.head? then ' ' :: normLoop prev rest
      else ' ' :: normLoop prev rest
    else c :: normLoop (some c) rest

def normalize_spaces (t : Str) : Str :=
  if t = [] then t else normLoop none t

/-! ### `replace_question_marks` and `_add_synonym_and_variants` -/

/-- `wildcard_replacements = ['-', '_', '^', '', ' ', "—"]`. -/
def wildcard_replacements : List Str :=
  [['-'], ['_'], ['^'], [], [' '], ['—']]

/-- The backtracking expansion of `?` wildcards, in depth-first order. -/
def replace_question_marks : Str → List Str
  | [] => [[]]
  | c :: rest =>
    if c = '?' then
      wildcard_replacements.flatMap (fun repl =>
        (replace_question_marks rest).map (fun tail => repl ++ tail))
    else
      (replace_question_marks rest).map (fun tail => c :: tail)

/-- The special connector characters of `special_chars_pattern`
`[-_\x60!@#$%^&=~—]` (the sixth entry is the backquote U+0060). -/
def specialChars : List Char :=
  ['-', '_', Char.ofNat 0x60, '!', '@', '#', '$', '%', '^', '&', '=', '~', '—']

def containsSpecial (w : Str) : Bool := w.any (fun c => specialChars.contains c)

/-- `re.sub(special_chars_pattern, '', w)`. -/
def removeSpecial (w : Str) : Str := w.filter (fun c => !(specialChars.contains c))

/-- `re.sub(special_chars_pattern, ' ', w)`. -/
def spaceSpecial (w : Str) : Str :=
  w.map (fun c => if specialChars.contains c then ' ' else c)

/-- `re.sub(r'\s+', ' ', w)`: each maximal run of whitespace becomes one
space (consumed one character at a time, emitting at the run's end). -/
def collapseWs : Str → Str
  | [] => []
  | c :: rest =>
    if pyIsSpace c then
      match rest with
      | c2 :: rest2 =>
        if pyIsSpace c2 then collapseWs (c2 :: rest2) else ' ' :: collapseWs (c2 :: rest2)
      | [] => [' ']
    else c :: collapseWs rest

/-- Python set insertion, modelled as order-preserving deduplication. -/
def insertSet (l : List Str) (x : Str) : List Str :=
  if x ∈ l then l else l ++ [x]

/-- `words_to_process`: the wildcard expansion of the (already stripped)
synonym when it contains `?`, else the singleton. -/
def wordsToProcess (syn : Str) : List Str :=
  if syn.contains '?' then (replace_question_marks syn).foldl insertSet []
  else [syn]

/-- One step of the `final_variants` accumulation: the processed word, plus
— only when the synonym was wildcard-expanded (`wheather_expand`, the
source's spelling) and the word contains a special connector character —
the word with those characters deleted and the word with them replaced by a
single space. -/
def fvStep (wheather_expand : Bool) (acc : List Str) (w : Str) : List Str :=
  let acc := insertSet acc w
  if wheather_expand && containsSpecial w then
    insertSet (insertSet acc (pyStrip (removeSpecial w)))
      (collapseWs (pyStrip (spaceSpecial w)))
  else acc

/-- `final_variants` for one (already stripped) synonym. -/
def finalVariantsOf (syn : Str) : List Str :=
  (wordsToProcess syn).foldl (fvStep (syn.contains '?')) []

/-- One step of the registration loop: a nonempty variant is lowercased and
bound in both dictionaries. -/
def regStep (sw col : Str) (p : Dict × Dict) (v : Str) : Dict × Dict :=
  if v ≠ [] then (dset p.1 (pyLower v) sw, dset p.2 (pyLower v) col) else p

/-- `_add_synonym_and_variants(synonym, standard_word, col)`: register every
nonempty final variant, lowercased, in both `synonym_dict` (value
`standard_word`) and `synonym_dict_label` (value `col`). -/
def add_synonym_and_variants (syn sw col : Str) (d dl : Dict) : Dict × Dict :=
  let syn := pyStrip syn
  if syn = [] then (d, dl)
  else (finalVariantsOf syn).foldl (regStep sw col) (d, dl)

/-- One vocabulary cell: (raw variant, standard word, column label). -/
abbrev Row := Str × Str × Str

/-- The vocabulary compilation loop of `load_synonyms`, restricted to the
part that fills the two dictionaries: a sequence of
`_add_synonym_and_variants` calls starting from empty dictionaries. -/
def loadRows (rows : List Row) : Dict × Dict :=
  rows.foldl (fun p r => add_synonym_and_variants r.1 r.2.1 r.2.2 p.1 p.2) ([], [])

/-! ### Exception-propagating fold

Python `for` loops whose bodies may raise are modelled by an explicit fold
that stops at the first error. -/

def foldE {σ α ε : Type} (f : σ → α → Except ε σ) : σ → List α → Except ε σ
  | s, [] => .ok s
  | s, a :: l =>
    match f s a with
    | .ok s' => foldE f s' l
    | .error e => .error e

/-- Python substring membership `a in b` (contiguous occurrence). -/
def isSubstrOf (a b : Str) : Bool :=
  (List.range (b.length + 1)).any (fun s => sliceP b s (s + a.length) == a)

/-! ### The scanner and boundary filter of `_replace_text_internal` -/

/-- `self.gps_name`. -/
def gpsName : List Str :=
  [['G','E'], ['西','门','子'], ['飞','利','浦'],
   ['S','i','e','m','e','n','s'], ['通','用','电','气'],
   ['P','h','i','l','i','p','s']]

/-- The canonical-name column label `'名词'`. -/
def nounLabel : Str := ['名','词']

/-- `is_alphanumeric_english_only` on a single character: ASCII alphanumeric
or one of the connectors `-` `_`. -/
def isWordChar (c : Char) : Bool :=
  c.toNat ≤ 0x7f && (is_ascii_alphabet c || is_ascii_num c || c = '-' || c = '_')

/-- `is_alphanumeric_english_only` on a string (False on the empty string). -/
def is_alphanumeric_english_only (s : Str) : Bool :=
  s ≠ [] && s.all isWordChar

/-- The maximal word-character extension of the span `[s, e]` of
`lower_text`: the two while loops moving `w_start` left and `w_end` right
over word characters, then the slice `lower_text[w_start : w_end + 1]`. -/
def containingWord (lt : Str) (s e : Nat) : Str :=
  ((lt.take s).reverse.takeWhile isWordChar).reverse
    ++ sliceP lt s (e + 1)
    ++ (lt.drop (e + 1)).takeWhile isWordChar

/-- The acceptance test applied to one raw automaton occurrence of the
keyword `kw` starting at `s` in `lower_text`: the two underscore-adjacency
`continue`s, then the `is_valid_match` computation over the containing
word. -/
def rawAccept (lt : Str) (s : Nat) (kw : Str) : Bool :=
  let e := s + kw.length - 1
  if s > 0 && lt.getD (s - 1) (Char.ofNat 0) = '_' then false
  else if e + 1 < lt.length && lt.getD (e + 1) (Char.ofNat 0) = '_' then false
  else
    let cw := containingWord lt s e
    if is_alphanumeric_english_only cw then cw.length = kw.length else true

/-- `text[i]` where `i` may be the Python negative index `-1`
(`text[start_index - 1]` with `start_index = 0` wraps to the last
character).  Out-of-range reads do not occur at the guarded call sites; the
default is the NUL character, which is neither a letter nor CJK. -/
def pyCharAt (t : Str) (i : Int) : Char :=
  if i < 0 then t.getD (t.length - i.natAbs) (Char.ofNat 0)
  else t.getD i.toNat (Char.ofNat 0)

/-- One accepted match, as appended to `all_matches`:
`(start_index, end_index, original_slice, standard_word, sw_with_space)`. -/
structure RMatch where
  s : Nat
  e : Nat
  fs : Str
  sw : Str
  sp : Str
deriving DecidableEq, Repr

/-- Builds the `all_matches` entry for an accepted occurrence: the original
slice and the boundary-spacing flags (note the source tests `start_index > 1`
for the leading flag, and reuses `text[start_index - 1]` — not
`text[end_index + 1]` — in the trailing flag's last conjunct; the
`standard_word[0]` / `standard_word[-1]` reads use a NUL default, which is
unreachable because registered standard words are nonempty). -/
def buildMatch (text : Str) (s : Nat) (kw sw : Str) : RMatch :=
  let e := s + kw.length - 1
  let startFlag :=
    if s > 1 then
      (is_ascii_alphabet (pyCharAt text (s - 1)) == is_ascii_alphabet (sw.headD (Char.ofNat 0)))
        && is_ascii_alphabet (pyCharAt text (s - 1))
    else false
  let endFlag :=
    if e + 1 < text.length then
      (is_ascii_alphabet (pyCharAt text (e + 1)) == is_ascii_alphabet (sw.getLastD (Char.ofNat 0)))
        && is_ascii_alphabet (pyCharAt text ((s : Int) - 1))
    else false
  let sp := (if startFlag then [' '] else []) ++ sw ++ (if endFlag then [' '] else [])
  ⟨s, e, sliceP text s (e + 1), sw, sp⟩

/-- All raw automaton occurrences: every `(start, keyword, standard_word)`
such that the keyword is a key of `synonym_dict` occurring at `start` in
`lower_text` (pyahocorasick's `iter` yields every occurrence of every
registered key). -/
def rawOccs (d : Dict) (lt : Str) : List (Nat × Str × Str) :=
  (List.range lt.length).flatMap (fun s =>
    (List.range (lt.length - s)).filterMap (fun k =>
      match dget? d (sliceP lt s (s + k + 1)) with
      | some sw => some (s, sliceP lt s (s + k + 1), sw)
      | none => none))

/-- `all_matches` before sorting: the accepted occurrences with their
original slices and spacing flags. -/
def scanMatches (d : Dict) (text : Str) : List RMatch :=
  let lt := pyLower text
  (rawOccs d lt).filterMap (fun o =>
    if rawAccept lt o.1 o.2.1 then some (buildMatch text o.1 o.2.1 o.2.2) else none)

/-- The sort key `(x[0], -x[1])`: start ascending, end descending. -/
def matchLE (a b : RMatch) : Prop :=
  a.s < b.s ∨ (a.s = b.s ∧ b.e ≤ a.e)

instance : DecidableRel matchLE := fun a b => by
  unfold matchLE; infer_instance

instance : IsTotal RMatch matchLE where
  total a b := by
    rcases Nat.lt_trichotomy a.s b.s with h | h | h
    · exact Or.inl (Or.inl h)
    · rcases Nat.le_total b.e a.e with h2 | h2
      · exact Or.inl (Or.inr ⟨h, h2⟩)
      · exact Or.inr (Or.inr ⟨h.symm, h2⟩)
    · exact Or.inr (Or.inl h)

instance : IsTrans RMatch matchLE where
  trans a b c hab hbc := by
    rcases hab with h1 | ⟨h1, h1e⟩ <;> rcases hbc with h2 | ⟨h2, h2e⟩
    · exact Or.inl (h1.trans h2)
    · exact Or.inl (h2 ▸ h1)
    · exact Or.inl (h1 ▸ h2)
    · exact Or.inr ⟨h1.trans h2, h2e.trans h1e⟩

/-- `all_matches.sort(key=lambda x: (x[0], -x[1]))`. -/
def sortedScan (d : Dict) (text : Str) : List RMatch :=
  (scanMatches d text).insertionSort matchLE

/-! ### The overlap resolver -/

/-- The mutable state of the resolution pass: `final_matches`, `last_end`
(starting at `-1`), the per-standard-word `match_dict`, and
`found_competitor_name`. -/
structure RState where
  fm : List RMatch
  lastEnd : Int
  md : List (Str × List RMatch)
  fcn : Bool
deriving DecidableEq, Repr

/-- `match_dict[sw]` for a `defaultdict(list)` read that does not insert. -/
def mdGet (md : List (Str × List RMatch)) (k : Str) : List RMatch :=
  match md.find? (fun p => p.1 == k) with
  | some p => p.2
  | none => []

/-- `match_dict[sw].append(m)` (creating the entry when absent). -/
def mdAppend (md : List (Str × List RMatch)) (k : Str) (m : RMatch) :
    List (Str × List RMatch) :=
  match md with
  | [] => [(k, [m])]
  | p :: rest => if p.1 == k then (p.1, p.2 ++ [m]) :: rest else p :: mdAppend rest k m

/-- `final_matches[final_matches.index(old)] = new`: replace the first
occurrence of `old`, or fail like `list.index` (ValueError). -/
def replaceFirst : List RMatch → RMatch → RMatch → Option (List RMatch)
  | [], _, _ => none
  | x :: xs, old, new =>
    if x = old then some (new :: xs)
    else (replaceFirst xs old new).map (fun l => x :: l)

/-- The whitespace tests guarding a merge: `char_before_overlap` or
`char_after_overlap` is whitespace, or the segment strictly between the two
spans contains whitespace (`''.isspace()` is false, modelled by the `none`
cases). -/
def mergeWsBlocked (text : Str) (m ex : RMatch) : Bool :=
  ((if m.s > 0 then text.get? (m.s - 1) else none).elim false pyIsSpace)
    || ((if ex.e + 1 < text.length then text.get? (ex.e + 1) else none).elim false pyIsSpace)
    || (sliceP text (ex.e + 1) m.s).any pyIsSpace

/-- The body of the inner `for existing_match in existing_matchs` loop: when
the candidate strictly extends `ex` on the right with no whitespace at or
inside the junction, the accepted match is widened in place and the
competitor-name flag is refreshed. -/
def mergeStep (dl : Dict) (text : Str) (m : RMatch) (st : RState) (ex : RMatch) :
    Except PyErr RState :=
  if ex.s < m.s ∧ m.s < ex.e ∧ m.e > ex.e then
    if !(mergeWsBlocked text m ex) then
      let upd : RMatch := ⟨ex.s, m.e, sliceP text ex.s (m.e + 1), m.sw, m.sp⟩
      match replaceFirst st.fm ex upd with
      | none => .error .valueError
      | some fm' =>
        match dget? dl (pyLower m.sw) with
        | none => .error .keyError
        | some lab =>
          .ok ⟨fm', (m.e : Int), st.md,
               st.fcn || (gpsName.contains m.sw && isSubstrOf nounLabel lab)⟩
    else .ok st
  else .ok st

/-- One iteration of the resolution pass for the candidate `m`: the merge
loop over the already-accepted matches of the same standard word, then the
`start > last_end` acceptance. -/
def resolveStep (dl : Dict) (text : Str) (st : RState) (m : RMatch) : Except PyErr RState :=
  match foldE (mergeStep dl text m) st (mdGet st.md m.sw) with
  | .error e => .error e
  | .ok st2 =>
    if (m.s : Int) > st2.lastEnd then
      match dget? dl (pyLower m.sw) with
      | none => .error .keyError
      | some lab =>
        .ok ⟨st2.fm ++ [m], (m.e : Int), mdAppend st2.md m.sw m,
             st2.fcn || (gpsName.contains m.sw && isSubstrOf nounLabel lab)⟩
    else .ok st2

/-- The whole resolution pass over the sorted candidate list. -/
def resolveAll (dl : Dict) (text : Str) (ms : List RMatch) : Except PyErr RState :=
  foldE (resolveStep dl text) ⟨[], -1, [], false⟩ ms

/-- The resolved replacement plan for one content run: scan, sort, resolve. -/
def resolvePlan (d dl : Dict) (text : Str) : Except PyErr RState :=
  resolveAll dl text (sortedScan d text)

/-! ### The product-flag loop and the render loop -/

/-- `gps_name` lowercased, as on line `[x.lower() for x in self.gps_name]`. -/
def gpsLower : List Str := gpsName.map pyLower

/-- State of the first post-resolution loop: `found_competitor_product`,
`found_own_product`, and the loop-local `found_competitor_product_` which
survives the loop (`none` when no iteration assigned it). -/
structure PState where
  fcp : Bool
  fop : Bool
  fcpLast : Option Bool
deriving DecidableEq, Repr

/-- One iteration of the product-flag loop: matches whose literal slice is
(case-insensitively) one of the brand names are skipped outright; otherwise
the slice's label is looked up (KeyError when absent) and the two booleans
are OR-accumulated. -/
def productStep (dl : Dict) (st : PState) (m : RMatch) : Except PyErr PState :=
  if gpsLower.contains (pyLower m.fs) then .ok st
  else
    match dget? dl (pyLower m.fs) with
    | none => .error .keyError
    | some lab =>
      let fcp_ := gpsName.any (fun x => isSubstrOf x lab)
      let fop_ := gpsName.all (fun x => !(isSubstrOf x lab))
      .ok ⟨st.fcp || fcp_, st.fop || fop_, some fcp_⟩

def productLoop (dl : Dict) (fm : List RMatch) : Except PyErr PState :=
  foldE (productStep dl) ⟨false, false, none⟩ fm

/-- State of the render loop: `result_parts`, `result_parts_sw`,
`replacements_made`, `last_index`. -/
structure RenderState where
  rp : Str
  rpsw : Str
  repls : List (Str × Str)
  lastIdx : Nat
deriving DecidableEq, Repr

/-- One iteration of the render loop.  The third guard reads the leaked
loop variable `found_competitor_product_`; when `found_competitor_name` is
true and that variable was never assigned, Python raises NameError (the
`and` short-circuits, so the read only happens when the flag is true). -/
def renderStep (founded : List Str) (fcn : Bool) (fcpLast : Option Bool) (text : Str)
    (st : RenderState) (m : RMatch) : Except PyErr RenderState :=
  if founded.count m.sw > 1 && pyLower m.fs != pyLower m.sw then .ok st
  else if m.fs = m.sw then .ok st
  else
    let guard3 : Except PyErr Bool :=
      if fcn then
        match fcpLast with
        | none => .error .nameError
        | some b => .ok b
      else .ok false
    match guard3 with
    | .error e => .error e
    | .ok true => .ok st
    | .ok false =>
      .ok ⟨st.rp ++ sliceP text st.lastIdx m.s ++ m.sp,
           st.rpsw ++ sliceP text st.lastIdx m.s ++ m.fs ++ ['('] ++ m.sw ++ [')'],
           st.repls ++ [(m.fs, m.sp)],
           m.e + 1⟩

def renderLoop (fcn : Bool) (fcpLast : Option Bool) (text : Str) (fm : List RMatch) :
    Except PyErr RenderState :=
  let founded := fm.map (fun x => x.sw)
  foldE (renderStep founded fcn fcpLast text) ⟨[], [], [], 0⟩ fm

/-! ### `_replace_text_internal` -/

/-- The five returned values of `_replace_text_internal`; the two flags are
`Option Bool` because the no-match early returns yield Python `None`. -/
structure InternalResult where
  replaced : Str
  annotated : Str
  repls : List (Str × Str)
  fcn : Option Bool
  only : Option Bool
deriving DecidableEq, Repr

def replace_text_internal (d dl : Dict) (text : Str) : Except PyErr InternalResult :=
  if text = [] then .ok ⟨text, text, [], none, none⟩
  else if scanMatches d text = [] then .ok ⟨text, text, [], none, none⟩
  else
    match resolveAll dl text (sortedScan d text) with
    | .error e => .error e
    | .ok st =>
      match productLoop dl st.fm with
      | .error e => .error e
      | .ok ps =>
        let only := ps.fcp && !ps.fop
        match renderLoop st.fcn ps.fcpLast text st.fm with
        | .error e => .error e
        | .ok rs =>
          .ok ⟨rs.rp ++ sliceP text rs.lastIdx text.length,
               rs.rpsw ++ sliceP text rs.lastIdx text.length,
               rs.repls, some st.fcn, some only⟩

/-! ### The segmenter of `replace_text` -/

/-- A piece produced by `re.split(r'((?:\n|\r|\t|\\[nrt])+)', text)`:
either a content run or a captured delimiter run. -/
inductive TextPart where
  | content (s : Str)
  | delim (s : Str)
deriving DecidableEq, Repr

/-- Length of the delimiter token starting here: a literal newline,
carriage return or tab (length 1), or a backslash followed by `n`, `r` or
`t` (length 2). -/
def delimTokenLen : Str → Option Nat
  | [] => none
  | c :: rest =>
    if c = '\n' || c = '\r' || c = '\t' then some 1
    else if c = '\\' then
      match rest with
      | c2 :: _ => if c2 = 'n' || c2 = 'r' || c2 = 't' then some 2 else none
      | [] => none
    else none

/-- Consume the maximal run of delimiter tokens.  The `Nat` argument is
fuel; every step consumes at least one character, so fuel equal to the text
length always suffices (callers pass it so). -/
def takeDelimRun : Nat → Str → Str × Str
  | 0, l => ([], l)
  | Nat.succ fuel, l =>
    match delimTokenLen l with
    | some n =>
      let p := takeDelimRun fuel (l.drop n)
      (l.take n ++ p.1, p.2)
    | none => ([], l)

/-- The splitting loop: accumulate content until a delimiter token starts,
then flush the (possibly empty) content part and the maximal delimiter run.
Fueled like `takeDelimRun`. -/
def splitLoop : Nat → Str → Str → List TextPart → List TextPart
  | 0, l, cur, acc => acc ++ [TextPart.content (cur ++ l)]
  | Nat.succ fuel, l, cur, acc =>
    match delimTokenLen l with
    | some _ =>
      let p := takeDelimRun (Nat.succ fuel) l
      splitLoop fuel p.2 [] (acc ++ [TextPart.content cur, TextPart.delim p.1])
    | none =>
      match l with
      | [] => acc ++ [TextPart.content cur]
      | c :: rest => splitLoop fuel rest (cur ++ [c]) acc

/-- `re.split` with the capturing delimiter pattern: alternating content and
delimiter parts (content parts may be empty; the caller skips those). -/
def pySplit (t : Str) : List TextPart := splitLoop t.length t [] []

/-! ### `replace_text` -/

/-- The final return value of `replace_text`: replaced text, annotated text,
replacement list and the two classification flags (which can be `None`). -/
structure ReplaceResult where
  replaced : Str
  annotated : Str
  repls : List (Str × Str)
  competitor_name_appear : Option Bool
  only_competitor_product_appear : Option Bool
deriving DecidableEq, Repr

/-- Python `x or y` on a False/True/None flag accumulator: keep `x` when it
is truthy, else take `y`. -/
def pyOr (a b : Option Bool) : Option Bool :=
  if a = some true then a else b

/-- Accumulator of the per-part loop in `replace_text`. -/
structure WState where
  modParts : Str
  swParts : Str
  repls : List (Str × Str)
  fcn : Option Bool
  fcp : Option Bool
deriving DecidableEq, Repr

/-- One iteration of the per-part loop: empty parts are skipped, delimiter
parts pass through both outputs, content parts run
`_replace_text_internal` and OR the returned flags into the accumulators. -/
def replacePartStep (d dl : Dict) (st : WState) (p : TextPart) : Except PyErr WState :=
  match p with
  | .delim s => .ok ⟨st.modParts ++ s, st.swParts ++ s, st.repls, st.fcn, st.fcp⟩
  | .content s =>
    if s = [] then .ok st
    else
      match replace_text_internal d dl s with
      | .error e => .error e
      | .ok ir =>
        .ok ⟨st.modParts ++ ir.replaced, st.swParts ++ ir.annotated,
             st.repls ++ ir.repls, pyOr st.fcn ir.fcn, pyOr st.fcp ir.only⟩

/-- `replace_text(text)`: the whitespace-only early return, space
normalization, delimiter split, the per-part loop, and the assembled
result. -/
def replace_text (d dl : Dict) (text : Str) : Except PyErr ReplaceResult :=
  if pyStrip text = [] then .ok ⟨text, text, [], none, none⟩
  else
    let t := normalize_spaces text
    match foldE (replacePartStep d dl) ⟨[], [], [], some false, some false⟩ (pySplit t) with
    | .error e => .error e
    | .ok st => .ok ⟨st.modParts, st.swParts, st.repls, st.fcn, st.fcp⟩

/-! ### Per-run views used to state the cross-run flag combination -/

/-- The nonempty content runs of an input, as `replace_text` produces them:
space-normalize, split on delimiter runs, keep nonempty content parts. -/
def contentRuns (t : Str) : List Str :=
  (pySplit (normalize_spaces t)).filterMap (fun p =>
    match p with
    | TextPart.content s => if s = [] then none else some s
    | TextPart.delim _ => none)

/-- The `found_competitor_name` value one content run reports (`none` both
when the run has no matches and — vacuously, never hit under a successful
`replace_text` — when the run raises). -/
def runName (d dl : Dict) (s : Str) : Option Bool :=
  match replace_text_internal d dl s with
  | .ok ir => ir.fcn
  | .error _ => none

/-- The `only_competitor_product_appear` value one content run reports. -/
def runOnly (d dl : Dict) (s : Str) : Option Bool :=
  match replace_text_internal d dl s with
  | .ok ir => ir.only
  | .error _ => none

/-- The two underlying product booleans
(`found_competitor_product`, `found_own_product`) of one content run, before
the run combines them; `(false, false)` when the run has no matches or
raises. -/
def runPState (d dl : Dict) (s : Str) : PState :=
  match resolvePlan d dl s with
  | .ok st =>
    match productLoop dl st.fm with
    | .ok ps => ps
    | .error _ => ⟨false, false, none⟩
  | .error _ => ⟨false, false, none⟩

/-- Modelled from the spec: the claim's (C6) global combination of the
only-competitor flag — OR each of the two underlying booleans across all
runs first, and only then combine them as
(competitor-product found AND NOT own-product found). -/
def specOnlyCompetitorGlobal (d dl : Dict) (t : Str) : Bool :=
  let runs := contentRuns t
  (runs.any (fun s => (runPState d dl s).fcp))
    && !(runs.any (fun s => (runPState d dl s).fop))

/-- Modelled from the spec: the claim's (C8) boundary acceptance rule — in
a pure word run accept exactly when the run is no longer than the variant,
otherwise accept unconditionally — amended with the underscore-adjacency
rejection that the scanner applies before the word-run rule. -/
def specBoundaryAccept (lt : Str) (s : Nat) (kw : Str) : Bool :=
  let e := s + kw.length - 1
  let underscoreAdjacent :=
    (s > 0 && lt.getD (s - 1) (Char.ofNat 0) = '_')
      || (e + 1 < lt.length && lt.getD (e + 1) (Char.ofNat 0) = '_')
  !underscoreAdjacent &&
    (if is_alphanumeric_english_only (containingWord lt s e)
     then (containingWord lt s e).length = kw.length
     else true)

/-! ### Concrete vocabularies for the witnesses and counterexamples.

Every vocabulary below registers each canonical term under itself with the
canonical `名词` label, as `load_synonyms` always does before processing the
variant columns. -/

def tongyong : Str := ['通', '用', '电', '气']

/-- The spec's end-to-end vocabulary: variant `GE` for canonical
`通用电气` under the canonical label. -/
def c1d : Dict := [(tongyong, tongyong), (['g', 'e'], tongyong)]

def c1dl : Dict := [(tongyong, nounLabel), (['g', 'e'], nounLabel)]

/-- Vocabulary with a brand-name variant (`GE` for `通用电气`) and an
ordinary variant (`foo` for `bar`, label `col1`). -/
def c4d : Dict :=
  [(tongyong, tongyong), (['g', 'e'], tongyong),
   (['b', 'a', 'r'], ['b', 'a', 'r']), (['f', 'o', 'o'], ['b', 'a', 'r'])]

def c4dl : Dict :=
  [(tongyong, nounLabel), (['g', 'e'], nounLabel),
   (['b', 'a', 'r'], nounLabel), (['f', 'o', 'o'], ['c', 'o', 'l', '1'])]

/-- Vocabulary whose run-level labels differ: `aa` resolves to `AA` under a
label mentioning the brand `GE`, `bb` resolves to `BB` under a label
mentioning no brand. -/
def c6d : Dict :=
  [(['a', 'a'], ['A', 'A']), (['b', 'b'], ['B', 'B'])]

def c6dl : Dict :=
  [(['a', 'a'], ['G', 'E', 'c', 'o', 'l']), (['b', 'b'], ['o', 'w', 'n'])]

/-- Vocabulary with a single space-containing variant `a b`. -/
def c8d : Dict := [(['a', ' ', 'b'], ['X'])]

/-- The resolved state for vocabulary `c1d` on input `我GE你`, used by the
C2 witness. -/
def c2st : RState :=
  ⟨[⟨1, 2, ['G', 'E'], tongyong, tongyong⟩],
   2,
   [(tongyong, [⟨1, 2, ['G', 'E'], tongyong, tongyong⟩])],
   true⟩

/-! ## Helper lemmas -/

theorem normLoop_head? (prev : Option Char) (l : Str) (h : l.head? ≠ some ' ') :
    (normLoop prev l).head? = l.head? := by
  cases l with
  | nil => rfl
  | cons c rest =>
    have hc : c ≠ ' ' := by
      intro hc
      exact h (by simp [hc])
    simp [normLoop, hc]

theorem normLoop_idem (l : Str) : ∀ prev, normLoop prev (normLoop prev l) = normLoop prev l := by
  induction l with
  | nil => intro prev; rfl
  | cons c rest ih =>
    intro prev
    by_cases hc : c = ' '
    · subst hc
      by_cases h2 : rest.head? = some ' '
      · simp [normLoop, h2, ih]
      · by_cases h3 : (isChineseO prev && isChineseO rest.head?) = true
        · simp [normLoop, h2, h3, ih]
        · have hout : normLoop prev (' ' :: rest) = ' ' :: normLoop prev rest := by
            by_cases h4 : (isEnglishO prev && isEnglishO rest.head?) = true <;>
              simp [normLoop, h2, h3, h4]
          rw [hout]
          have hhd : (normLoop prev rest).head? = rest.head? := normLoop_head? prev rest h2
          have h2' : (normLoop prev rest).head? ≠ some ' ' := by rw [hhd]; exact h2
          have h3' : ¬((isChineseO prev && isChineseO (normLoop prev rest).head?) = true) := by
            rw [hhd]; exact h3
          by_cases h4 : (isEnglishO prev && isEnglishO rest.head?) = true
          · have h4' : (isEnglishO prev && isEnglishO (normLoop prev rest).head?) = true := by
              rw [hhd]; exact h4
            simp [normLoop, h2', h3', h4', ih]
          · have h4' : ¬((isEnglishO prev && isEnglishO (normLoop prev rest).head?) = true) := by
              rw [hhd]; exact h4
            simp [normLoop, h2', h3', h4', ih]
    · simp [normLoop, hc, ih]

/-! ## Claim theorems -/

/-- C10: `normalize_spaces` is idempotent — for every string `t`,
`normalize_spaces (normalize_spaces t)` equals `normalize_spaces t`. -/
theorem c10_normalize_spaces_idempotent (t : Str) :
    normalize_spaces (normalize_spaces t) = normalize_spaces t := by
  unfold normalize_spaces
  by_cases h : t = []
  · simp [h]
  · simp only [h, if_false]
    by_cases h2 : normLoop none t = []
    · simp [h2]
    · simp only [h2, if_false]
      exact normLoop_idem t none

/-- C1: the spec's end-to-end example.  With the vocabulary mapping variant
`GE` (label `名词`) to canonical `通用电气`, `replace` on `我们用GE设备` does
not return the claimed `(我们用 通用电气 设备, flags…)`: the only final
match's literal `GE` is a brand-name string, so the product-flag loop skips
it and never assigns `found_competitor_product_`, and since
`found_competitor_name` is true the render filter reads that unassigned
variable — Python raises NameError. -/
theorem c1_end_to_end_example_raises :
    replace_text c1d c1dl (['我', '们', '用', 'G', 'E', '设', '备'])
      = .error .nameError := by rfl

/-- C3: the claimed absence of error outcomes is violated: on input `GE`
(with the same vocabulary) the render filter reads the never-assigned
`found_competitor_product_` loop variable and Python raises NameError, so
`replace` does not return normally for every input. -/
theorem c3_replace_error_reachable :
    replace_text c1d c1dl (['G', 'E']) = .error .nameError := by rfl

/-- C4: counterexample.  With vocabulary `c4d`/`c4dl` and input `GE foo`,
the literal brand-name match `GE` *is* spliced into the replaced output and
*does* appear in the replacements list — the claimed exclusion from the
textual replacement does not exist (the `continue` for gps literals sits in
the product-flag loop, not the render loop; with `found_competitor_name`
true the render filter consults the leaked `found_competitor_product_`,
which is `False` here because of the `foo` iteration). -/
theorem c4_gps_literal_in_replacements :
    replace_text c4d c4dl (['G', 'E', ' ', 'f', 'o', 'o'])
      = .ok ⟨['通', '用', '电', '气', ' ', ' ', 'b', 'a', 'r'],
             ['G', 'E', '(', '通', '用', '电', '气', ')', ' ', 'f', 'o', 'o', '(', 'b', 'a', 'r', ')'],
             [(['G', 'E'], ['通', '用', '电', '气', ' ']), (['f', 'o', 'o'], ['b', 'a', 'r'])],
             some true, some false⟩ := by rfl

/-- C4 (amended): a final match whose literal text is (case-insensitively)
one of the `gps_name` strings is excluded only from the *product-flag*
computation — the flags behind `only_competitor_product_appear` are
identical whether or not such matches are present — while its exclusion
from the textual replacement is not guaranteed (see the counterexample). -/
theorem c4_product_loop_skips_gps_literals (dl : Dict) (fm : List RMatch) :
    productLoop dl fm
      = productLoop dl (fm.filter (fun m => !(gpsLower.contains (pyLower m.fs)))) := by
  have key : ∀ (l : List RMatch) (st : PState),
      foldE (productStep dl) st l
        = foldE (productStep dl) st (l.filter (fun m => !(gpsLower.contains (pyLower m.fs)))) := by
    intro l
    induction l with
    | nil => intro st; rfl
    | cons m rest ih =>
      intro st
      by_cases hg : pyLower m.fs ∈ gpsLower
      · have hgc : gpsLower.contains (pyLower m.fs) = true := by simpa using hg
        simp [foldE, productStep, hgc, hg, List.filter_cons, ih st]
      · have hgc : gpsLower.contains (pyLower m.fs) = false := by simpa using hg
        cases he : dget? dl (pyLower m.fs) with
        | none => simp [foldE, productStep, hgc, hg, he, List.filter_cons]
        | some lab => simp [foldE, productStep, hgc, hg, he, List.filter_cons, ih]
  exact key fm ⟨false, false, none⟩

/-- C5: counterexample.  A variant that contains a special connector
character but no wildcard marker (`a-b`) registers only itself: neither the
deleted form `ab` nor the spaced form `a b` is added, so the claim's
"wildcard-expanded or not" scope is wrong. -/
theorem c5_no_derived_variants_without_wildcard :
    containsSpecial ['a', '-', 'b'] = true
    ∧ add_synonym_and_variants ['a', '-', 'b'] ['X'] ['c'] [] []
        = ([(['a', '-', 'b'], ['X'])], [(['a', '-', 'b'], ['c'])])
    ∧ dget? (add_synonym_and_variants ['a', '-', 'b'] ['X'] ['c'] [] []).1 ['a', 'b'] = none := by
  exact ⟨by rfl, by rfl, by rfl⟩

/-- C6: counterexample.  On input `aa\nbb` with vocabulary `c6d`/`c6dl`,
run one detects only a competitor product and run two only an own product:
the code's per-run combination OR-ed across runs yields `True`, while the
claim's OR-the-underlying-booleans-first semantics yields `False`. -/
theorem c6_only_flag_per_run_or :
    replace_text c6d c6dl (['a', 'a', '\n', 'b', 'b'])
      = .ok ⟨['A', 'A', '\n', 'B', 'B'],
             ['a', 'a', '(', 'A', 'A', ')', '\n', 'b', 'b', '(', 'B', 'B', ')'],
             [(['a', 'a'], ['A', 'A']), (['b', 'b'], ['B', 'B'])],
             some false, some true⟩
    ∧ specOnlyCompetitorGlobal c6d c6dl (['a', 'a', '\n', 'b', 'b']) = false := by
  exact ⟨by rfl, by rfl⟩

/-- C7: counterexample.  `通用电气` is a canonical term of the spec's own
example vocabulary; calling `replace` with exactly that term returns the
term unchanged with an empty replacements list, but the classification
flags are *not* all unset: the acceptance pass sets
`competitor_name_appear` to `True` because the canonical term is a brand
name with the canonical label. -/
theorem c7_canonical_brand_sets_flag :
    replace_text c1d c1dl tongyong
      = .ok ⟨tongyong, tongyong, [], some true, some false⟩ := by rfl

/-- C8: counterexample.  The variant `a b` occurs at offsets 1–3 of
`_a b` and its containing word `_a b` is not a pure word run, so by the
claim it should be accepted unconditionally; the scanner nevertheless
rejects it because the underscore-adjacency check precedes the word-run
rule. -/
theorem c8_underscore_blocks_nonword_match :
    dget? c8d (sliceP (pyLower ['_', 'a', ' ', 'b']) 1 4) = some ['X']
    ∧ is_alphanumeric_english_only (containingWord (pyLower ['_', 'a', ' ', 'b']) 1 3) = false
    ∧ scanMatches c8d (['_', 'a', ' ', 'b']) = [] := by
  exact ⟨by rfl, by rfl, by rfl⟩

theorem charLe_iff_toNat {a b : Char} : a ≤ b ↔ a.toNat ≤ b.toNat := by
  rw [Char.le_def, UInt32.le_def, BitVec.le_def]
  exact Iff.rfl

theorem toNat_char_ofNat_of_valid {n : Nat} (h : n.isValidChar) :
    (Char.ofNat n).toNat = n := by
  rw [Char.ofNat, dif_pos h]
  rfl

theorem pyLowerChar_idem (c : Char) : pyLowerChar (pyLowerChar c) = pyLowerChar c := by
  unfold pyLowerChar
  by_cases h : (('A' ≤ c) && (c ≤ 'Z')) = true
  · rw [if_pos h]
    rw [Bool.and_eq_true, decide_eq_true_eq, decide_eq_true_eq] at h
    have h1 : 65 ≤ c.toNat := charLe_iff_toNat.mp h.1
    have hvalid : (c.toNat + 32).isValidChar := Or.inl (by
      have h2 : c.toNat ≤ 90 := charLe_iff_toNat.mp h.2
      omega)
    have ht : (Char.ofNat (c.toNat + 32)).toNat = c.toNat + 32 :=
      toNat_char_ofNat_of_valid hvalid
    have hno : ¬ (Char.ofNat (c.toNat + 32) ≤ 'Z') := by
      intro hle
      have := charLe_iff_toNat.mp hle
      rw [ht] at this
      have hz : ('Z').toNat = 90 := by decide
      omega
    have hcond : ¬ ((('A' ≤ Char.ofNat (c.toNat + 32)) && (Char.ofNat (c.toNat + 32) ≤ 'Z')) = true) := by
      rw [Bool.and_eq_true, decide_eq_true_eq, decide_eq_true_eq]
      intro hc
      exact hno hc.2
    rw [if_neg hcond]
  · rw [if_neg h, if_neg h]

theorem pyLower_idem (s : Str) : pyLower (pyLower s) = pyLower s := by
  unfold pyLower
  rw [List.map_map]
  exact List.map_congr_left (fun c _ => pyLowerChar_idem c)

theorem dget?_isSome_iff (d : Dict) (k : Str) :
    (dget? d k).isSome ↔ k ∈ d.map Prod.fst := by
  unfold dget?
  have hmap : ∀ (o : Option (Str × Str)), (o.map (·.2)).isSome = o.isSome := by
    intro o; cases o <;> rfl
  rw [hmap, List.find?_isSome]
  constructor
  · rintro ⟨x, hx, hpx⟩
    rw [List.mem_reverse] at hx
    have : x.1 = k := by simpa using hpx
    exact this ▸ List.mem_map_of_mem Prod.fst hx
  · intro hk
    rcases List.mem_map.mp hk with ⟨x, hx, hxk⟩
    exact ⟨x, List.mem_reverse.mpr hx, by simp [hxk]⟩

theorem regFold_keys (sw col : Str) : ∀ (vs : List Str) (p : Dict × Dict),
    p.1.map Prod.fst = p.2.map Prod.fst →
    (vs.foldl (regStep sw col) p).1.map Prod.fst
      = (vs.foldl (regStep sw col) p).2.map Prod.fst := by
  intro vs
  induction vs with
  | nil => intro p h; exact h
  | cons v rest ih =>
    intro p h
    apply ih
    unfold regStep dset
    by_cases hv : v ≠ [] <;> simp [hv, h]

theorem regFold_lower (sw col : Str) : ∀ (vs : List Str) (p : Dict × Dict),
    (∀ k ∈ p.1.map Prod.fst, pyLower k = k) →
    ∀ k ∈ (vs.foldl (regStep sw col) p).1.map Prod.fst, pyLower k = k := by
  intro vs
  induction vs with
  | nil => intro p h; exact h
  | cons v rest ih =>
    intro p h
    apply ih
    intro k hk
    by_cases hv : v ≠ []
    · have hr : regStep sw col p v = (dset p.1 (pyLower v) sw, dset p.2 (pyLower v) col) := by
        simp [regStep, hv]
      rw [hr] at hk
      unfold dset at hk
      rw [List.map_append, List.mem_append] at hk
      rcases hk with hk | hk
      · exact h k hk
      · have : k = pyLower v := by simpa using hk
        rw [this]; exact pyLower_idem v
    · have hr : regStep sw col p v = p := by simp [regStep, hv]
      rw [hr] at hk
      exact h k hk

/-- C9: after vocabulary loading the variant table and the label table have
the same key sequence (hence the same key set) with every key a lowercase
string, every call to `_add_synonym_and_variants` preserves this invariant,
and consequently a label lookup succeeds exactly when the variant lookup
does. -/
theorem c9_dicts_parallel :
    (∀ rows : List Row,
        (loadRows rows).1.map Prod.fst = (loadRows rows).2.map Prod.fst
        ∧ (∀ k ∈ (loadRows rows).1.map Prod.fst, pyLower k = k)
        ∧ (∀ k, (dget? (loadRows rows).1 k).isSome ↔ (dget? (loadRows rows).2 k).isSome))
    ∧ (∀ syn sw col d dl,
        d.map Prod.fst = dl.map Prod.fst →
        (∀ k ∈ d.map Prod.fst, pyLower k = k) →
        (add_synonym_and_variants syn sw col d dl).1.map Prod.fst
            = (add_synonym_and_variants syn sw col d dl).2.map Prod.fst
          ∧ (∀ k ∈ (add_synonym_and_variants syn sw col d dl).1.map Prod.fst, pyLower k = k)) := by
  have hadd : ∀ syn sw col d dl,
      d.map Prod.fst = dl.map Prod.fst →
      (∀ k ∈ d.map Prod.fst, pyLower k = k) →
      (add_synonym_and_variants syn sw col d dl).1.map Prod.fst
          = (add_synonym_and_variants syn sw col d dl).2.map Prod.fst
        ∧ (∀ k ∈ (add_synonym_and_variants syn sw col d dl).1.map Prod.fst, pyLower k = k) := by
    intro syn sw col d dl hkeys hlow
    unfold add_synonym_and_variants
    by_cases hs : pyStrip syn = []
    · simp only [hs, if_pos]
      exact ⟨hkeys, hlow⟩
    · simp only [hs, if_neg, if_false]
      exact ⟨regFold_keys sw col _ (d, dl) hkeys, regFold_lower sw col _ (d, dl) hlow⟩
  constructor
  · intro rows
    have hinv : ∀ (rs : List Row) (p : Dict × Dict),
        p.1.map Prod.fst = p.2.map Prod.fst →
        (∀ k ∈ p.1.map Prod.fst, pyLower k = k) →
        (rs.foldl (fun p r => add_synonym_and_variants r.1 r.2.1 r.2.2 p.1 p.2) p).1.map Prod.fst
            = (rs.foldl (fun p r => add_synonym_and_variants r.1 r.2.1 r.2.2 p.1 p.2) p).2.map Prod.fst
          ∧ (∀ k ∈ (rs.foldl (fun p r => add_synonym_and_variants r.1 r.2.1 r.2.2 p.1 p.2) p).1.map Prod.fst,
              pyLower k = k) := by
      intro rs
      induction rs with
      | nil => intro p h1 h2; exact ⟨h1, h2⟩
      | cons r rest ih =>
        intro p h1 h2
        rcases hadd r.1 r.2.1 r.2.2 p.1 p.2 h1 h2 with ⟨h1', h2'⟩
        exact ih _ h1' h2'
    rcases hinv rows ([], []) rfl (by intro k hk; cases hk) with ⟨h1, h2⟩
    unfold loadRows
    refine ⟨h1, h2, ?_⟩
    intro k
    rw [dget?_isSome_iff, dget?_isSome_iff, h1]
  · exact hadd

/-- C8 (amended): the scanner's acceptance of a raw occurrence is exactly
the claim's word-run rule — within a pure word run accept if and only if
the run's length equals the variant's, otherwise accept — *after* the
underscore-adjacency rejection, which precedes the word-run rule and can
reject a match even when its surrounding content is not a pure word run. -/
theorem c8_boundary_filter_rule (lt : Str) (s : Nat) (kw : Str) :
    rawAccept lt s kw = specBoundaryAccept lt s kw := by
  unfold rawAccept specBoundaryAccept
  by_cases h1 : s > 0
  <;> by_cases h2 : lt.getD (s - 1) (Char.ofNat 0) = '_'
  <;> by_cases h3 : s + kw.length - 1 + 1 < lt.length
  <;> by_cases h4 : lt.getD (s + kw.length - 1 + 1) (Char.ofNat 0) = '_'
  <;> simp [h1, h2, h3, h4, Bool.and_assoc]

theorem mem_insertSet {l : List Str} {x y : Str} : x ∈ insertSet l y ↔ x ∈ l ∨ x = y := by
  unfold insertSet
  by_cases h : y ∈ l
  · simp only [h, if_pos]
    constructor
    · exact Or.inl
    · rintro (hx | hx)
      · exact hx
      · exact hx ▸ h
  · simp [h]

theorem mem_fvFold (we : Bool) : ∀ (ws : List Str) (acc : List Str) (x : Str),
    x ∈ acc → x ∈ ws.foldl (fvStep we) acc := by
  intro ws
  induction ws with
  | nil => intro acc x h; exact h
  | cons w rest ih =>
    intro acc x h
    apply ih
    by_cases hc : (we && containsSpecial w) = true
    · have hstep : fvStep we acc w
          = insertSet (insertSet (insertSet acc w) (pyStrip (removeSpecial w)))
              (collapseWs (pyStrip (spaceSpecial w))) := by
        simp [fvStep, hc]
      rw [hstep]
      exact mem_insertSet.mpr (Or.inl (mem_insertSet.mpr (Or.inl (mem_insertSet.mpr (Or.inl h)))))
    · have hstep : fvStep we acc w = insertSet acc w := by simp [fvStep, hc]
      rw [hstep]
      exact mem_insertSet.mpr (Or.inl h)

theorem fv_derived_mem (we : Bool) : ∀ (ws : List Str) (acc : List Str) (w : Str),
    w ∈ ws → (we && containsSpecial w) = true →
    pyStrip (removeSpecial w) ∈ ws.foldl (fvStep we) acc
    ∧ collapseWs (pyStrip (spaceSpecial w)) ∈ ws.foldl (fvStep we) acc := by
  intro ws
  induction ws with
  | nil => intro acc w h; cases h
  | cons w0 rest ih =>
    intro acc w hw hc
    rcases List.mem_cons.mp hw with he | hm
    · subst he
      have hstep : fvStep we acc w
          = insertSet (insertSet (insertSet acc w) (pyStrip (removeSpecial w)))
              (collapseWs (pyStrip (spaceSpecial w))) := by
        simp [fvStep, hc]
      rw [List.foldl_cons, hstep]
      constructor
      · exact mem_fvFold we rest _ _
          (mem_insertSet.mpr (Or.inl (mem_insertSet.mpr (Or.inr rfl))))
      · exact mem_fvFold we rest _ _ (mem_insertSet.mpr (Or.inr rfl))
    · exact ih (fvStep we acc w0) w hm hc

theorem dget?_dset (d : Dict) (k k' v : Str) :
    dget? (dset d k v) k' = if k' = k then some v else dget? d k' := by
  unfold dget? dset
  have hrev : (d ++ [(k, v)]).reverse = (k, v) :: d.reverse := by simp
  rw [hrev, List.find?_cons]
  by_cases hk : k' = k
  · have hb : ((k, v).1 == k') = true := by simp [hk]
    simp [hb, hk]
  · have hb : ((k, v).1 == k') = false := by
      simp only [beq_eq_false_iff_ne]
      intro h
      exact hk h.symm
    simp [hb, hk]

theorem regFold_get_not_mem (sw col : Str) : ∀ (vs : List Str) (p : Dict × Dict) (k : Str),
    (∀ v ∈ vs, v ≠ [] → pyLower v ≠ k) →
    dget? (vs.foldl (regStep sw col) p).1 k = dget? p.1 k
    ∧ dget? (vs.foldl (regStep sw col) p).2 k = dget? p.2 k := by
  intro vs
  induction vs with
  | nil => intro p k _; exact ⟨rfl, rfl⟩
  | cons v rest ih =>
    intro p k h
    rcases ih (regStep sw col p v) k (fun v' hv' => h v' (List.mem_cons_of_mem v hv')) with ⟨h1, h2⟩
    refine ⟨h1.trans ?_, h2.trans ?_⟩
    · by_cases hv : v ≠ []
      · have hr : regStep sw col p v = (dset p.1 (pyLower v) sw, dset p.2 (pyLower v) col) := by
          simp [regStep, hv]
        rw [hr]
        have hne : k ≠ pyLower v := fun he => h v (List.mem_cons_self v rest) hv he.symm
        rw [dget?_dset, if_neg hne]
      · have hr : regStep sw col p v = p := by simp [regStep, hv]
        rw [hr]
    · by_cases hv : v ≠ []
      · have hr : regStep sw col p v = (dset p.1 (pyLower v) sw, dset p.2 (pyLower v) col) := by
          simp [regStep, hv]
        rw [hr]
        have hne : k ≠ pyLower v := fun he => h v (List.mem_cons_self v rest) hv he.symm
        rw [dget?_dset, if_neg hne]
      · have hr : regStep sw col p v = p := by simp [regStep, hv]
        rw [hr]

theorem regFold_get (sw col : Str) : ∀ (vs : List Str) (p : Dict × Dict) (v : Str),
    v ∈ vs → v ≠ [] →
    dget? (vs.foldl (regStep sw col) p).1 (pyLower v) = some sw
    ∧ dget? (vs.foldl (regStep sw col) p).2 (pyLower v) = some col := by
  intro vs
  induction vs with
  | nil => intro p v h; cases h
  | cons v0 rest ih =>
    intro p v hv hne
    by_cases hrest : ∃ v' ∈ rest, v' ≠ [] ∧ pyLower v' = pyLower v
    · rcases hrest with ⟨v', hv', hne', heq⟩
      rw [List.foldl_cons, ← heq]
      exact ih (regStep sw col p v0) v' hv' hne'
    · have hv0 : v = v0 := by
        rcases List.mem_cons.mp hv with he | hm
        · exact he
        · exact absurd ⟨v, hm, hne, rfl⟩ hrest
      subst hv0
      rw [List.foldl_cons]
      have hnot : ∀ v' ∈ rest, v' ≠ [] → pyLower v' ≠ pyLower v := by
        intro v' hv' hne' heq
        exact hrest ⟨v', hv', hne', heq⟩
      rcases regFold_get_not_mem sw col rest (regStep sw col p v) (pyLower v) hnot with ⟨h1, h2⟩
      have hr : regStep sw col p v = (dset p.1 (pyLower v) sw, dset p.2 (pyLower v) col) := by
        simp [regStep, hne]
      rw [h1, h2, hr, dget?_dset, dget?_dset, if_pos rfl, if_pos rfl]
      exact ⟨rfl, rfl⟩

/-- C5 (amended): the two derived connector variants (deleted and spaced)
are registered for the same canonical term only when the raw variant was a
wildcard template: for every synonym whose stripped form contains `?`,
every processed word containing a special connector character registers
its nonempty deleted form and its nonempty spaced form, both lowercased,
mapping to the standard word and the column label. -/
theorem c5_derived_variants_for_wildcard (syn sw col : Str) (d dl : Dict) (w : Str)
    (hq : (pyStrip syn).contains '?' = true)
    (hw : w ∈ wordsToProcess (pyStrip syn))
    (hs : containsSpecial w = true) :
    (pyStrip (removeSpecial w) ≠ [] →
      dget? (add_synonym_and_variants syn sw col d dl).1
          (pyLower (pyStrip (removeSpecial w))) = some sw
      ∧ dget? (add_synonym_and_variants syn sw col d dl).2
          (pyLower (pyStrip (removeSpecial w))) = some col)
    ∧ (collapseWs (pyStrip (spaceSpecial w)) ≠ [] →
      dget? (add_synonym_and_variants syn sw col d dl).1
          (pyLower (collapseWs (pyStrip (spaceSpecial w)))) = some sw
      ∧ dget? (add_synonym_and_variants syn sw col d dl).2
          (pyLower (collapseWs (pyStrip (spaceSpecial w)))) = some col) := by
  have hsne : ¬ (pyStrip syn = []) := by
    intro h
    rw [h] at hq
    cases hq
  have hcond : ((pyStrip syn).contains '?' && containsSpecial w) = true := by
    rw [hq, hs]; rfl
  have hd := fv_derived_mem ((pyStrip syn).contains '?')
    (wordsToProcess (pyStrip syn)) [] w hw hcond
  unfold add_synonym_and_variants
  simp only [hsne, if_false]
  constructor
  · intro hne
    exact regFold_get sw col (finalVariantsOf (pyStrip syn)) (d, dl) _ hd.1 hne
  · intro hne
    exact regFold_get sw col (finalVariantsOf (pyStrip syn)) (d, dl) _ hd.2 hne

theorem foldE_nil {σ α ε : Type} (f : σ → α → Except ε σ) (s : σ) :
    foldE f s [] = .ok s := rfl

theorem foldE_cons {σ α ε : Type} (f : σ → α → Except ε σ) (s : σ) (a : α) (l : List α) :
    foldE f s (a :: l)
      = match f s a with
        | .ok s' => foldE f s' l
        | .error e => .error e := rfl

theorem foldE_cons_ok {σ α ε : Type} {f : σ → α → Except ε σ} {s s2 : σ} {a : α} {l : List α}
    (hx : f s a = .ok s2) : foldE f s (a :: l) = foldE f s2 l := by
  rw [foldE_cons, hx]

theorem foldE_cons_error {σ α ε : Type} {f : σ → α → Except ε σ} {s : σ} {a : α} {l : List α}
    {e : ε} (hx : f s a = .error e) : foldE f s (a :: l) = .error e := by
  rw [foldE_cons, hx]

theorem replaceFirst_decomp (old new : RMatch) :
    ∀ (l l' : List RMatch), replaceFirst l old new = some l' →
    ∃ l1 l2, l = l1 ++ old :: l2 ∧ l' = l1 ++ new :: l2 := by
  intro l
  induction l with
  | nil => intro l' h; cases h
  | cons x xs ih =>
    intro l' h
    unfold replaceFirst at h
    by_cases hx : x = old
    · rw [if_pos hx] at h
      injection h with h
      subst h
      exact ⟨[], xs, by simp [hx], rfl⟩
    · rw [if_neg hx] at h
      cases he : replaceFirst xs old new with
      | none => rw [he] at h; cases h
      | some l2' =>
        rw [he] at h
        simp only [Option.map_some'] at h
        injection h with h
        subst h
        rcases ih l2' he with ⟨l1, l2, hl, hl'⟩
        exact ⟨x :: l1, l2, by rw [hl]; rfl, by rw [hl']; rfl⟩

theorem mergeStep_inv (dl : Dict) (text : Str) (m ex : RMatch) (st st' : RState)
    (hpw : st.fm.Pairwise (fun a b => a.e < b.s))
    (hse : ∀ f ∈ st.fm, f.s ≤ f.e)
    (hend : ∀ f ∈ st.fm, (f.e : Int) ≤ st.lastEnd)
    (hbnd : ∀ f ∈ st.fm, f.s ≤ m.s)
    (h : mergeStep dl text m st ex = .ok st') :
    st'.fm.Pairwise (fun a b => a.e < b.s)
    ∧ (∀ f ∈ st'.fm, f.s ≤ f.e)
    ∧ (∀ f ∈ st'.fm, (f.e : Int) ≤ st'.lastEnd)
    ∧ (∀ f ∈ st'.fm, f.s ≤ m.s) := by
  simp only [mergeStep] at h
  split at h
  case isTrue hcond =>
    split at h
    case isFalse =>
      injection h with h
      subst h
      exact ⟨hpw, hse, hend, hbnd⟩
    case isTrue hws =>
      split at h
      case h_1 heq => exact (Except.noConfusion h)
      case h_2 fm' heq =>
        split at h
        case h_1 hlab => exact (Except.noConfusion h)
        case h_2 lab hlab =>
          injection h with h
          subst h
          rcases replaceFirst_decomp ex ⟨ex.s, m.e, sliceP text ex.s (m.e + 1), m.sw, m.sp⟩
            st.fm fm' heq with ⟨l1, l2, hfm, hfm'⟩
          have hl2 : l2 = [] := by
            cases l2 with
            | nil => rfl
            | cons g l2' =>
              exfalso
              have hg_mem : g ∈ st.fm := by rw [hfm]; simp
              have hgs : g.s ≤ m.s := hbnd g hg_mem
              have hpw' := hpw
              rw [hfm] at hpw'
              have hexg : ex.e < g.s := by
                rcases List.pairwise_append.mp hpw' with ⟨_, hpr, _⟩
                exact (List.pairwise_cons.mp hpr).1 g (by simp)
              have hms : m.s < ex.e := hcond.2.1
              omega
          subst hl2
          have hpw' := hpw
          rw [hfm] at hpw'
          rcases List.pairwise_append.mp hpw' with ⟨hpl1, _, hcross⟩
          have hl1ex : ∀ a ∈ l1, a.e < ex.s := fun a ha => hcross a ha ex (by simp)
          have hexmem : ex ∈ st.fm := by rw [hfm]; simp
          have hexse : ex.s ≤ ex.e := hse ex hexmem
          have hee : ex.e < m.e := hcond.2.2
          refine ⟨?_, ?_, ?_, ?_⟩
          · rw [hfm']
            refine List.pairwise_append.mpr ⟨hpl1, by simp, ?_⟩
            intro a ha b hb
            have hb' : b = ⟨ex.s, m.e, sliceP text ex.s (m.e + 1), m.sw, m.sp⟩ := by
              simpa using hb
            subst hb'
            exact hl1ex a ha
          · intro f hf
            rw [hfm'] at hf
            rcases List.mem_append.mp hf with hf | hf
            · exact hse f (by rw [hfm]; exact List.mem_append_left _ hf)
            · have hf' : f = ⟨ex.s, m.e, sliceP text ex.s (m.e + 1), m.sw, m.sp⟩ := by
                simpa using hf
              subst hf'
              show ex.s ≤ m.e
              omega
          · intro f hf
            rw [hfm'] at hf
            rcases List.mem_append.mp hf with hf | hf
            · have h1 : f.e < ex.s := hl1ex f hf
              show (f.e : Int) ≤ (m.e : Int)
              omega
            · have hf' : f = ⟨ex.s, m.e, sliceP text ex.s (m.e + 1), m.sw, m.sp⟩ := by
                simpa using hf
              subst hf'
              show ((m.e : Nat) : Int) ≤ (m.e : Int)
              omega
          · intro f hf
            rw [hfm'] at hf
            rcases List.mem_append.mp hf with hf | hf
            · exact hbnd f (by rw [hfm]; exact List.mem_append_left _ hf)
            · have hf' : f = ⟨ex.s, m.e, sliceP text ex.s (m.e + 1), m.sw, m.sp⟩ := by
                simpa using hf
              subst hf'
              show ex.s ≤ m.s
              exact Nat.le_of_lt hcond.1
  case isFalse =>
    injection h with h
    subst h
    exact ⟨hpw, hse, hend, hbnd⟩

theorem mergeFold_inv (dl : Dict) (text : Str) (m : RMatch) :
    ∀ (exs : List RMatch) (st st' : RState),
    st.fm.Pairwise (fun a b => a.e < b.s) →
    (∀ f ∈ st.fm, f.s ≤ f.e) →
    (∀ f ∈ st.fm, (f.e : Int) ≤ st.lastEnd) →
    (∀ f ∈ st.fm, f.s ≤ m.s) →
    foldE (mergeStep dl text m) st exs = .ok st' →
    st'.fm.Pairwise (fun a b => a.e < b.s)
    ∧ (∀ f ∈ st'.fm, f.s ≤ f.e)
    ∧ (∀ f ∈ st'.fm, (f.e : Int) ≤ st'.lastEnd)
    ∧ (∀ f ∈ st'.fm, f.s ≤ m.s) := by
  intro exs
  induction exs with
  | nil =>
    intro st st' h1 h2 h3 h4 h
    rw [foldE_nil] at h
    injection h with h
    subst h
    exact ⟨h1, h2, h3, h4⟩
  | cons ex rest ih =>
    intro st st' h1 h2 h3 h4 h
    cases hx : mergeStep dl text m st ex with
    | error e => rw [foldE_cons_error hx] at h; exact (Except.noConfusion h)
    | ok st2 =>
      rw [foldE_cons_ok hx] at h
      rcases mergeStep_inv dl text m ex st st2 h1 h2 h3 h4 hx with ⟨g1, g2, g3, g4⟩
      exact ih st2 st' g1 g2 g3 g4 h

theorem resolveStep_inv (dl : Dict) (text : Str) (st : RState) (m : RMatch) (st' : RState)
    (hm : m.s ≤ m.e)
    (hpw : st.fm.Pairwise (fun a b => a.e < b.s))
    (hse : ∀ f ∈ st.fm, f.s ≤ f.e)
    (hend : ∀ f ∈ st.fm, (f.e : Int) ≤ st.lastEnd)
    (hbnd : ∀ f ∈ st.fm, f.s ≤ m.s)
    (h : resolveStep dl text st m = .ok st') :
    st'.fm.Pairwise (fun a b => a.e < b.s)
    ∧ (∀ f ∈ st'.fm, f.s ≤ f.e)
    ∧ (∀ f ∈ st'.fm, (f.e : Int) ≤ st'.lastEnd)
    ∧ (∀ f ∈ st'.fm, f.s ≤ m.s) := by
  unfold resolveStep at h
  cases hfl : foldE (mergeStep dl text m) st (mdGet st.md m.sw) with
  | error e => rw [hfl] at h; exact (Except.noConfusion h)
  | ok st2 =>
    rw [hfl] at h
    rcases mergeFold_inv dl text m (mdGet st.md m.sw) st st2 hpw hse hend hbnd hfl
      with ⟨g1, g2, g3, g4⟩
    simp only [] at h
    split at h
    case isTrue hgt =>
      split at h
      case h_1 => exact (Except.noConfusion h)
      case h_2 lab hlab =>
        injection h with h
        subst h
        refine ⟨?_, ?_, ?_, ?_⟩
        · refine List.pairwise_append.mpr ⟨g1, by simp, ?_⟩
          intro a ha b hb
          have hb' : b = m := by simpa using hb
          have h3a := g3 a ha
          have h4a := g4 a ha
          rw [hb']
          show a.e < m.s
          omega
        · intro f hf
          rcases List.mem_append.mp hf with hf | hf
          · exact g2 f hf
          · have hf' : f = m := by simpa using hf
            rw [hf']
            exact hm
        · intro f hf
          rcases List.mem_append.mp hf with hf | hf
          · have h1 := g3 f hf
            show (f.e : Int) ≤ (m.e : Int)
            omega
          · have hf' : f = m := by simpa using hf
            rw [hf']
        · intro f hf
          rcases List.mem_append.mp hf with hf | hf
          · exact g4 f hf
          · have hf' : f = m := by simpa using hf
            rw [hf']
    case isFalse =>
      injection h with h
      subst h
      exact ⟨g1, g2, g3, g4⟩

theorem resolveFold_inv (dl : Dict) (text : Str) :
    ∀ (ms : List RMatch) (st st' : RState),
    ms.Pairwise matchLE →
    (∀ m ∈ ms, m.s ≤ m.e) →
    st.fm.Pairwise (fun a b => a.e < b.s) →
    (∀ f ∈ st.fm, f.s ≤ f.e) →
    (∀ f ∈ st.fm, (f.e : Int) ≤ st.lastEnd) →
    (∀ m ∈ ms, ∀ f ∈ st.fm, f.s ≤ m.s) →
    foldE (resolveStep dl text) st ms = .ok st' →
    st'.fm.Pairwise (fun a b => a.e < b.s)
    ∧ (∀ f ∈ st'.fm, f.s ≤ f.e) := by
  intro ms
  induction ms with
  | nil =>
    intro st st' _ _ h1 h2 _ _ h
    rw [foldE_nil] at h
    injection h with h
    subst h
    exact ⟨h1, h2⟩
  | cons m rest ih =>
    intro st st' hsorted hbnds h1 h2 h3 h4 h
    cases hx : resolveStep dl text st m with
    | error e => rw [foldE_cons_error hx] at h; exact (Except.noConfusion h)
    | ok st2 =>
      rw [foldE_cons_ok hx] at h
      have hm : m.s ≤ m.e := hbnds m (List.mem_cons_self m rest)
      rcases resolveStep_inv dl text st m st2 hm h1 h2 h3
        (h4 m (List.mem_cons_self m rest)) hx with ⟨g1, g2, g3, g4⟩
      have hrel : ∀ p ∈ rest, m.s ≤ p.s := by
        intro p hp
        rcases (List.pairwise_cons.mp hsorted).1 p hp with hlt | ⟨heq, _⟩
        · exact Nat.le_of_lt hlt
        · exact Nat.le_of_eq heq
      refine ih st2 st' (List.pairwise_cons.mp hsorted).2
        (fun p hp => hbnds p (List.mem_cons_of_mem m hp)) g1 g2 g3 ?_ h
      intro p hp f hf
      exact Nat.le_trans (g4 f hf) (hrel p hp)

theorem scanMatches_bounds (d : Dict) (text : Str) (m : RMatch)
    (hm : m ∈ scanMatches d text) : m.s ≤ m.e ∧ m.e < text.length := by
  unfold scanMatches at hm
  rw [List.mem_filterMap] at hm
  rcases hm with ⟨o, ho, hif⟩
  by_cases hacc : rawAccept (pyLower text) o.1 o.2.1 = true
  · rw [if_pos hacc] at hif
    injection hif with hif
    subst hif
    unfold rawOccs at ho
    rw [List.mem_flatMap] at ho
    rcases ho with ⟨s, hs, ho⟩
    rw [List.mem_filterMap] at ho
    rcases ho with ⟨k, hk, hko⟩
    rw [List.mem_range] at hs hk
    cases hd : dget? d (sliceP (pyLower text) s (s + k + 1)) with
    | none => rw [hd] at hko; cases hko
    | some sw =>
      rw [hd] at hko
      injection hko with hko
      subst hko
      have hlt : (pyLower text).length = text.length := List.length_map text pyLowerChar
      have hlen : (sliceP (pyLower text) s (s + k + 1)).length = k + 1 := by
        unfold sliceP
        rw [List.length_take, List.length_drop]
        omega
      have hbm : ∀ kw sw', (buildMatch text s kw sw').s = s ∧ (buildMatch text s kw sw').e
          = s + kw.length - 1 := by
        intro kw sw'
        constructor <;> rfl
      rcases hbm (sliceP (pyLower text) s (s + k + 1)) sw with ⟨hms, hme⟩
      rw [hms, hme, hlen]
      constructor
      · omega
      · omega
  · rw [if_neg hacc] at hif
    cases hif

/-- C2: for every compiled vocabulary and every input text, when the
overlap-resolution pass returns a plan, its occurrences are pairwise
non-overlapping and sorted by start offset — the entry starting earlier
ends strictly before the later entry starts — and this includes the plans
produced through the same-canonical-term merge/extension step, which is
part of the modelled pass. -/
theorem c2_plan_no_overlap_sorted (d dl : Dict) (text : Str) (st : RState)
    (h : resolvePlan d dl text = .ok st) :
    st.fm.Pairwise (fun a b => a.e < b.s ∧ a.s ≤ b.s) := by
  unfold resolvePlan resolveAll at h
  have hsorted : (sortedScan d text).Pairwise matchLE := by
    have := List.sorted_insertionSort matchLE (scanMatches d text)
    exact this
  have hbnds : ∀ m ∈ sortedScan d text, m.s ≤ m.e := by
    intro m hm
    unfold sortedScan at hm
    rw [List.mem_insertionSort] at hm
    exact (scanMatches_bounds d text m hm).1
  rcases resolveFold_inv dl text (sortedScan d text) ⟨[], -1, [], false⟩ st hsorted hbnds
    (by simp) (by intro f hf; cases hf) (by intro f hf; cases hf)
    (by intro m hm f hf; cases hf) h with ⟨g1, g2⟩
  refine List.Pairwise.imp_of_mem ?_ g1
  intro a b ha hb hr
  have hab : a.s ≤ a.e := g2 a ha
  exact ⟨hr, by omega⟩

/-- Witness for C2: the hypotheses of `c2_plan_no_overlap_sorted` hold at
the end-to-end vocabulary on input `我GE你`, whose resolved plan is the
concrete state `c2st`. -/
theorem c2_plan_no_overlap_sorted_witness :
    resolvePlan c1d c1dl (['我', 'G', 'E', '你']) = .ok c2st
    ∧ c2st.fm.Pairwise (fun a b => a.e < b.s ∧ a.s ≤ b.s) := by
  refine ⟨by rfl, ?_⟩
  exact c2_plan_no_overlap_sorted c1d c1dl (['我', 'G', 'E', '你']) c2st (by rfl)

/-- Witness for C5 (amended): the hypotheses hold at the wildcard template
`a?b` with processed word `a-b`, and its deleted form `ab` is registered
for the canonical term `X`. -/
theorem c5_derived_variants_for_wildcard_witness :
    (pyStrip ['a', '?', 'b']).contains '?' = true
    ∧ ['a', '-', 'b'] ∈ wordsToProcess (pyStrip ['a', '?', 'b'])
    ∧ containsSpecial ['a', '-', 'b'] = true
    ∧ dget? (add_synonym_and_variants ['a', '?', 'b'] ['X'] ['c'] [] []).1
        (pyLower (pyStrip (removeSpecial ['a', '-', 'b']))) = some ['X'] := by
  refine ⟨by rfl, by decide, by rfl, ?_⟩
  exact ((c5_derived_variants_for_wildcard ['a', '?', 'b'] ['X'] ['c'] [] [] ['a', '-', 'b']
    (by rfl) (by decide) (by rfl)).1 (by decide)).1

theorem pyOr_eq_some_true {a b : Option Bool} :
    pyOr a b = some true ↔ a = some true ∨ b = some true := by
  unfold pyOr
  by_cases h : a = some true <;> simp [h]

theorem pyOr_some_false (b : Option Bool) : pyOr (some false) b = b := by
  unfold pyOr
  simp

theorem foldl_pyOr_some_true (f : Str → Option Bool) :
    ∀ (l : List Str) (a : Option Bool),
    l.foldl (fun acc s => pyOr acc (f s)) a = some true
      ↔ a = some true ∨ ∃ s ∈ l, f s = some true := by
  intro l
  induction l with
  | nil => intro a; simp
  | cons x xs ih =>
    intro a
    rw [List.foldl_cons, ih, pyOr_eq_some_true]
    constructor
    · rintro ((h | h) | ⟨s, hs, h⟩)
      · exact Or.inl h
      · exact Or.inr ⟨x, by simp, h⟩
      · exact Or.inr ⟨s, by simp [hs], h⟩
    · rintro (h | ⟨s, hs, h⟩)
      · exact Or.inl (Or.inl h)
      · rcases List.mem_cons.mp hs with he | hm
        · rw [he] at h
          exact Or.inl (Or.inr h)
        · exact Or.inr ⟨s, hm, h⟩

theorem replaceFold_flags (d dl : Dict) :
    ∀ (parts : List TextPart) (st st' : WState),
    foldE (replacePartStep d dl) st parts = .ok st' →
    st'.fcn = (parts.filterMap (fun p =>
        match p with
        | TextPart.content s => if s = [] then none else some s
        | TextPart.delim _ => none)).foldl (fun a s => pyOr a (runName d dl s)) st.fcn
    ∧ st'.fcp = (parts.filterMap (fun p =>
        match p with
        | TextPart.content s => if s = [] then none else some s
        | TextPart.delim _ => none)).foldl (fun a s => pyOr a (runOnly d dl s)) st.fcp := by
  intro parts
  induction parts with
  | nil =>
    intro st st' h
    rw [foldE_nil] at h
    injection h with h
    subst h
    exact ⟨rfl, rfl⟩
  | cons p rest ih =>
    intro st st' h
    cases p with
    | delim s =>
      have hstep : replacePartStep d dl st (TextPart.delim s)
          = .ok ⟨st.modParts ++ s, st.swParts ++ s, st.repls, st.fcn, st.fcp⟩ := rfl
      rw [foldE_cons_ok hstep] at h
      rcases ih _ st' h with ⟨h1, h2⟩
      exact ⟨h1, h2⟩
    | content s =>
      by_cases hs : s = []
      · subst hs
        have hstep : replacePartStep d dl st (TextPart.content []) = .ok st := rfl
        rw [foldE_cons_ok hstep] at h
        rcases ih _ st' h with ⟨h1, h2⟩
        exact ⟨h1, h2⟩
      · cases hint : replace_text_internal d dl s with
        | error e =>
          have hstep : replacePartStep d dl st (TextPart.content s) = .error e := by
            simp [replacePartStep, hs, hint]
          rw [foldE_cons_error hstep] at h
          exact (Except.noConfusion h)
        | ok ir =>
          have hstep : replacePartStep d dl st (TextPart.content s)
              = .ok ⟨st.modParts ++ ir.replaced, st.swParts ++ ir.annotated,
                     st.repls ++ ir.repls, pyOr st.fcn ir.fcn, pyOr st.fcp ir.only⟩ := by
            simp [replacePartStep, hs, hint]
          rw [foldE_cons_ok hstep] at h
          rcases ih _ st' h with ⟨h1, h2⟩
          have hrA : runName d dl s = ir.fcn := by unfold runName; rw [hint]
          have hrB : runOnly d dl s = ir.only := by unfold runOnly; rw [hint]
          constructor
          · rw [h1]
            simp [List.filterMap_cons, hs, hrA]
          · rw [h2]
            simp [List.filterMap_cons, hs, hrB]

/-- C6 (amended): for every non-whitespace input on which `replace` returns,
`competitor_name_appear` is `True` exactly when it is `True` in at least one
content run; `only_competitor_product_appear`, however, is *not* combined
globally from the OR of the underlying booleans — it is the Python-`or`
fold of the per-run values, each run having already combined its own two
booleans (see the counterexample for the difference). -/
theorem c6_flags_across_runs (d dl : Dict) (t : Str) (r : ReplaceResult)
    (h0 : pyStrip t ≠ [])
    (h : replace_text d dl t = .ok r) :
    (r.competitor_name_appear = some true ↔ ∃ s ∈ contentRuns t, runName d dl s = some true)
    ∧ r.only_competitor_product_appear
        = (contentRuns t).foldl (fun a s => pyOr a (runOnly d dl s)) (some false) := by
  unfold replace_text at h
  rw [if_neg h0] at h
  cases hf : foldE (replacePartStep d dl) ⟨[], [], [], some false, some false⟩
      (pySplit (normalize_spaces t)) with
  | error e =>
    simp only [hf] at h
    exact (Except.noConfusion h)
  | ok stf =>
    simp only [hf] at h
    injection h with h
    subst h
    rcases replaceFold_flags d dl (pySplit (normalize_spaces t)) _ _ hf with ⟨h1, h2⟩
    constructor
    · show stf.fcn = some true ↔ _
      rw [h1, foldl_pyOr_some_true]
      unfold contentRuns
      simp
    · show stf.fcp = _
      rw [h2]
      unfold contentRuns
      rfl

/-- Witness for C6 (amended): the hypotheses hold at the two-run vocabulary
`c6d`/`c6dl` on input `aa\nbb`: the name flag is not `True` in any run and
the only-competitor flag equals the Python-`or` of the per-run values. -/
theorem c6_flags_across_runs_witness :
    pyStrip ['a', 'a', '\n', 'b', 'b'] ≠ []
    ∧ ((some false : Option Bool) = some true
        ↔ ∃ s ∈ contentRuns ['a', 'a', '\n', 'b', 'b'], runName c6d c6dl s = some true)
    ∧ (some true : Option Bool)
        = (contentRuns ['a', 'a', '\n', 'b', 'b']).foldl
            (fun a s => pyOr a (runOnly c6d c6dl s)) (some false) := by
  refine ⟨by decide, ?_⟩
  have := c6_flags_across_runs c6d c6dl (['a', 'a', '\n', 'b', 'b'])
    ⟨['A', 'A', '\n', 'B', 'B'],
     ['a', 'a', '(', 'A', 'A', ')', '\n', 'b', 'b', '(', 'B', 'B', ')'],
     [(['a', 'a'], ['A', 'A']), (['b', 'b'], ['B', 'B'])],
     some false, some true⟩ (by decide) (by rfl)
  exact this

theorem scanMatches_decomp (d : Dict) (text : Str) (m : RMatch)
    (hm : m ∈ scanMatches d text) :
    ∃ s k sw, m = buildMatch text s (sliceP (pyLower text) s (s + k + 1)) sw
      ∧ dget? d (sliceP (pyLower text) s (s + k + 1)) = some sw
      ∧ s + k < (pyLower text).length
      ∧ m.s = s ∧ m.e = s + k := by
  unfold scanMatches at hm
  rw [List.mem_filterMap] at hm
  rcases hm with ⟨o, ho, hif⟩
  by_cases hacc : rawAccept (pyLower text) o.1 o.2.1 = true
  · rw [if_pos hacc] at hif
    injection hif with hif
    subst hif
    unfold rawOccs at ho
    rw [List.mem_flatMap] at ho
    rcases ho with ⟨s, hs, ho⟩
    rw [List.mem_filterMap] at ho
    rcases ho with ⟨k, hk, hko⟩
    rw [List.mem_range] at hs hk
    cases hd : dget? d (sliceP (pyLower text) s (s + k + 1)) with
    | none => rw [hd] at hko; cases hko
    | some sw =>
      rw [hd] at hko
      injection hko with hko
      subst hko
      have hlen : (sliceP (pyLower text) s (s + k + 1)).length = k + 1 := by
        unfold sliceP
        rw [List.length_take, List.length_drop]
        omega
      refine ⟨s, k, sw, rfl, hd, by omega, rfl, ?_⟩
      show s + (sliceP (pyLower text) s (s + k + 1)).length - 1 = s + k
      rw [hlen]
      omega
  · rw [if_neg hacc] at hif
    cases hif

theorem resolveStep_empty (dl : Dict) (text : Str) (m : RMatch) (lab : Str)
    (hlab : dget? dl (pyLower m.sw) = some lab) :
    resolveStep dl text ⟨[], -1, [], false⟩ m
      = .ok ⟨[m], (m.e : Int), [(m.sw, [m])],
             gpsName.contains m.sw && isSubstrOf nounLabel lab⟩ := by
  unfold resolveStep
  have h1 : foldE (mergeStep dl text m) (⟨[], -1, [], false⟩ : RState)
      (mdGet (⟨[], -1, [], false⟩ : RState).md m.sw) = .ok ⟨[], -1, [], false⟩ := rfl
  rw [h1]
  simp only []
  have hgt : ((m.s : Nat) : Int) > (⟨[], -1, [], false⟩ : RState).lastEnd := by
    show ((m.s : Nat) : Int) > (-1 : Int)
    omega
  rw [if_pos hgt]
  rw [hlab]
  simp [mdAppend]

theorem resolveStep_saturated (dl : Dict) (text : Str) (w x : RMatch) (b : Bool)
    (hx : x.s ≤ x.e) (hxe : x.e ≤ w.e) :
    resolveStep dl text ⟨[w], (w.e : Int), [(w.sw, [w])], b⟩ x
      = .ok ⟨[w], (w.e : Int), [(w.sw, [w])], b⟩ := by
  unfold resolveStep
  have hmw : mergeStep dl text x ⟨[w], (w.e : Int), [(w.sw, [w])], b⟩ w
      = .ok ⟨[w], (w.e : Int), [(w.sw, [w])], b⟩ := by
    unfold mergeStep
    rw [if_neg]
    intro hc
    have := hc.2.2
    omega
  have hmd : ∀ l, l = mdGet ([(w.sw, [w])] : List (Str × List RMatch)) x.sw →
      foldE (mergeStep dl text x) (⟨[w], (w.e : Int), [(w.sw, [w])], b⟩ : RState) l
        = .ok ⟨[w], (w.e : Int), [(w.sw, [w])], b⟩ := by
    intro l hl
    have hlw : l = [w] ∨ l = [] := by
      by_cases hsw : (w.sw == x.sw) = true
      · left
        simp [mdGet, List.find?, hsw] at hl
        exact hl
      · right
        simp [mdGet, List.find?, hsw] at hl
        exact hl
    rcases hlw with hl2 | hl2
    · subst hl2
      rw [foldE_cons_ok hmw, foldE_nil]
    · subst hl2
      rw [foldE_nil]
  rw [hmd (mdGet (⟨[w], (w.e : Int), [(w.sw, [w])], b⟩ : RState).md x.sw) rfl]
  simp only []
  have hngt : ¬ (((x.s : Nat) : Int)
      > (⟨[w], (w.e : Int), [(w.sw, [w])], b⟩ : RState).lastEnd) := by
    show ¬ (((x.s : Nat) : Int) > ((w.e : Nat) : Int))
    omega
  rw [if_neg hngt]

theorem all_not_eq_not_any (l : List Str) (p : Str → Bool) :
    l.all (fun x => !(p x)) = !(l.any p) := by
  induction l with
  | nil => rfl
  | cons x xs ih => simp [List.all_cons, List.any_cons, ih]

theorem productLoop_single (dl : Dict) (w : RMatch) (lab : Str)
    (hlab : dget? dl (pyLower w.fs) = some lab) :
    productLoop dl [w]
      = .ok (if gpsLower.contains (pyLower w.fs)
             then ⟨false, false, none⟩
             else ⟨gpsName.any (fun x => isSubstrOf x lab),
                   gpsName.all (fun x => !(isSubstrOf x lab)),
                   some (gpsName.any (fun x => isSubstrOf x lab))⟩) := by
  by_cases hg : pyLower w.fs ∈ gpsLower
  · have hgc : gpsLower.contains (pyLower w.fs) = true := by simpa using hg
    simp [productLoop, foldE, productStep, hgc, hg]
  · have hgc : gpsLower.contains (pyLower w.fs) = false := by simpa using hg
    simp [productLoop, foldE, productStep, hgc, hg, hlab]

theorem renderLoop_identity (fcpLast : Option Bool) (text : Str) (w : RMatch)
    (hfs : w.fs = w.sw) :
    renderLoop false fcpLast text [w] = .ok ⟨[], [], [], 0⟩ := by
  unfold renderLoop
  simp only []
  have hstep : renderStep ([w].map (fun x => x.sw)) false fcpLast text ⟨[], [], [], 0⟩ w
      = .ok ⟨[], [], [], 0⟩ := by
    unfold renderStep
    have hcount : ¬ ((([w].map (fun x => x.sw)).count w.sw > 1
        && (pyLower w.fs != pyLower w.sw)) = true) := by
      simp
    rw [if_neg hcount, if_pos hfs]
  rw [foldE_cons_ok hstep, foldE_nil]

/-- C7 (amended): calling `replace` with a canonical term `t` that space
normalization leaves unchanged, that occupies a single content run, and
that still maps to itself in the compiled dictionaries returns `t`
unchanged as both output strings with an empty replacements list; the
flags, however, are not always unset: `competitor_name_appear` is false
only under the stated hypothesis that `t` is not a brand name carrying the
canonical label (see the counterexample), and
`only_competitor_product_appear` is false when `t` is itself brand-lettered
and otherwise reports whether `t`'s label mentions a brand name. -/
theorem c7_canonical_identity (d dl : Dict) (t L : Str)
    (h0 : pyStrip t ≠ [])
    (h1 : normalize_spaces t = t)
    (h2 : pySplit t = [TextPart.content t])
    (h3 : dget? d (pyLower t) = some t)
    (h4 : dget? dl (pyLower t) = some L)
    (h5 : (gpsName.contains t && isSubstrOf nounLabel L) = false) :
    replace_text d dl t
      = .ok ⟨t, t, [], some false,
             some (!(gpsLower.contains (pyLower t))
               && gpsName.any (fun x => isSubstrOf x L))⟩ := by
  have hne : t ≠ [] := by
    intro ht
    apply h0
    rw [ht]
    rfl
  have hlen0 : 0 < t.length := List.length_pos.mpr hne
  have hlt : (pyLower t).length = t.length := List.length_map t pyLowerChar
  have hslice0 : sliceP t 0 t.length = t := by
    unfold sliceP
    simp
  have hsliceLt : sliceP (pyLower t) 0 (pyLower t).length = pyLower t := by
    unfold sliceP
    simp
  have hwhole : buildMatch t 0 (pyLower t) t = ⟨0, t.length - 1, t, t, t⟩ := by
    unfold buildMatch
    have hb : 0 + (pyLower t).length - 1 + 1 = t.length := by omega
    have ha : 0 + (pyLower t).length - 1 = t.length - 1 := by omega
    have hc : t.length - 1 + 1 = t.length := by omega
    simp only [hb, ha, hc]
    simp [hslice0, Nat.lt_irrefl]
  have hcw : containingWord (pyLower t) 0 (0 + (pyLower t).length - 1) = pyLower t := by
    unfold containingWord
    have hb : 0 + (pyLower t).length - 1 + 1 = (pyLower t).length := by omega
    rw [hb]
    simp [hsliceLt, List.drop_length]
  have hacc : rawAccept (pyLower t) 0 (pyLower t) = true := by
    unfold rawAccept
    simp only []
    have hc1 : ¬ (((0 : Nat) > 0
        && (pyLower t).getD (0 - 1) (Char.ofNat 0) = '_') = true) := by
      intro hcontra
      rw [Bool.and_eq_true] at hcontra
      have h1 := of_decide_eq_true hcontra.1
      omega
    have hc2 : ¬ ((0 + (pyLower t).length - 1 + 1 < (pyLower t).length
        && (pyLower t).getD (0 + (pyLower t).length - 1 + 1) (Char.ofNat 0) = '_') = true) := by
      intro hcontra
      rw [Bool.and_eq_true] at hcontra
      have h1 := of_decide_eq_true hcontra.1
      omega
    rw [if_neg hc1, if_neg hc2, hcw]
    by_cases hpure : is_alphanumeric_english_only (pyLower t) = true
    · simp [hpure]
    · simp [hpure]
  have hmem : (⟨0, t.length - 1, t, t, t⟩ : RMatch) ∈ scanMatches d t := by
    rw [← hwhole]
    unfold scanMatches
    rw [List.mem_filterMap]
    refine ⟨(0, pyLower t, t), ?_, ?_⟩
    · unfold rawOccs
      rw [List.mem_flatMap]
      refine ⟨0, by rw [List.mem_range]; omega, ?_⟩
      rw [List.mem_filterMap]
      refine ⟨(pyLower t).length - 1, by rw [List.mem_range]; omega, ?_⟩
      have hsl : sliceP (pyLower t) 0 (0 + ((pyLower t).length - 1) + 1) = pyLower t := by
        have hb : 0 + ((pyLower t).length - 1) + 1 = (pyLower t).length := by omega
        rw [hb, hsliceLt]
      show (match dget? d (sliceP (pyLower t) 0 (0 + ((pyLower t).length - 1) + 1)) with
            | some sw => some (0, sliceP (pyLower t) 0 (0 + ((pyLower t).length - 1) + 1), sw)
            | none => none) = some ((0 : Nat), pyLower t, t)
      rw [hsl, h3]
    · show (if rawAccept (pyLower t) 0 (pyLower t)
            then some (buildMatch t 0 (pyLower t) t) else none)
          = some (buildMatch t 0 (pyLower t) t)
      rw [if_pos hacc]
  have hmin : ∀ x ∈ scanMatches d t, matchLE ⟨0, t.length - 1, t, t, t⟩ x := by
    intro x hx
    rcases scanMatches_bounds d t x hx with ⟨hx1, hx2⟩
    by_cases hxs : x.s = 0
    · exact Or.inr ⟨hxs.symm, by show x.e ≤ t.length - 1; omega⟩
    · exact Or.inl (by show 0 < x.s; omega)
  have hhead : ∃ rest, sortedScan d t = (⟨0, t.length - 1, t, t, t⟩ : RMatch) :: rest := by
    cases hs : sortedScan d t with
    | nil =>
      exfalso
      have hin : (⟨0, t.length - 1, t, t, t⟩ : RMatch) ∈ sortedScan d t := by
        unfold sortedScan
        rw [List.mem_insertionSort]
        exact hmem
      rw [hs] at hin
      cases hin
    | cons hd rest =>
      have hhd_mem : hd ∈ scanMatches d t := by
        have hh : hd ∈ sortedScan d t := by rw [hs]; exact List.mem_cons_self hd rest
        unfold sortedScan at hh
        rw [List.mem_insertionSort] at hh
        exact hh
      have hin : (⟨0, t.length - 1, t, t, t⟩ : RMatch) ∈ hd :: rest := by
        rw [← hs]
        unfold sortedScan
        rw [List.mem_insertionSort]
        exact hmem
      rcases List.mem_cons.mp hin with he | hin2
      · exact ⟨rest, by rw [← he]⟩
      · have hsorted : (sortedScan d t).Pairwise matchLE :=
          List.sorted_insertionSort matchLE (scanMatches d t)
        rw [hs] at hsorted
        have h2' : matchLE hd ⟨0, t.length - 1, t, t, t⟩ :=
          (List.pairwise_cons.mp hsorted).1 _ hin2
        rcases scanMatches_bounds d t hd hhd_mem with ⟨hb1, hb2⟩
        have hds : hd.s = 0 := by
          rcases h2' with hlt2 | ⟨heq, _⟩
          · exact absurd hlt2 (by show ¬ (hd.s < 0); omega)
          · exact heq
        have hde : hd.e = t.length - 1 := by
          rcases h2' with hlt2 | ⟨_, hge⟩
          · exact absurd hlt2 (by show ¬ (hd.s < 0); omega)
          · have hge' : t.length - 1 ≤ hd.e := hge
            omega
        rcases scanMatches_decomp d t hd hhd_mem with ⟨s, k, sw', hbm, hdg, hk, hms, hme⟩
        have hs0 : s = 0 := by omega
        subst hs0
        have hk0 : k = t.length - 1 := by omega
        subst hk0
        have hsl : sliceP (pyLower t) 0 (0 + (t.length - 1) + 1) = pyLower t := by
          have hb : 0 + (t.length - 1) + 1 = (pyLower t).length := by omega
          rw [hb, hsliceLt]
        rw [hsl] at hbm hdg
        rw [h3] at hdg
        injection hdg with hdg
        subst hdg
        rw [hwhole] at hbm
        exact ⟨rest, by rw [hbm]⟩
  obtain ⟨rest, hscan⟩ := hhead
  have hrestb : ∀ x ∈ rest, x.s ≤ x.e ∧ x.e < t.length := by
    intro x hx
    have hx2 : x ∈ sortedScan d t := by rw [hscan]; exact List.mem_cons_of_mem _ hx
    unfold sortedScan at hx2
    rw [List.mem_insertionSort] at hx2
    exact scanMatches_bounds d t x hx2
  have hstep1 : resolveStep dl t ⟨[], -1, [], false⟩ ⟨0, t.length - 1, t, t, t⟩
      = .ok ⟨[⟨0, t.length - 1, t, t, t⟩], ((t.length - 1 : Nat) : Int),
             [(t, [⟨0, t.length - 1, t, t, t⟩])], false⟩ := by
    have hr := resolveStep_empty dl t ⟨0, t.length - 1, t, t, t⟩ L h4
    rw [hr]
    have hb : (gpsName.contains ((⟨0, t.length - 1, t, t, t⟩ : RMatch)).sw
        && isSubstrOf nounLabel L) = false := h5
    rw [hb]
  have hfold : ∀ (l : List RMatch), (∀ x ∈ l, x.s ≤ x.e ∧ x.e < t.length) →
      foldE (resolveStep dl t)
        ⟨[⟨0, t.length - 1, t, t, t⟩], ((t.length - 1 : Nat) : Int),
         [(t, [⟨0, t.length - 1, t, t, t⟩])], false⟩ l
      = .ok ⟨[⟨0, t.length - 1, t, t, t⟩], ((t.length - 1 : Nat) : Int),
             [(t, [⟨0, t.length - 1, t, t, t⟩])], false⟩ := by
    intro l
    induction l with
    | nil => intro _; rfl
    | cons x xs ih =>
      intro hl
      have hx := hl x (List.mem_cons_self x xs)
      have hstep' : resolveStep dl t
          ⟨[⟨0, t.length - 1, t, t, t⟩], ((t.length - 1 : Nat) : Int),
           [(t, [⟨0, t.length - 1, t, t, t⟩])], false⟩ x
          = .ok ⟨[⟨0, t.length - 1, t, t, t⟩], ((t.length - 1 : Nat) : Int),
                 [(t, [⟨0, t.length - 1, t, t, t⟩])], false⟩ :=
        resolveStep_saturated dl t ⟨0, t.length - 1, t, t, t⟩ x false hx.1
          (by show x.e ≤ t.length - 1; omega)
      rw [foldE_cons_ok hstep']
      exact ih (fun y hy => hl y (List.mem_cons_of_mem x hy))
  have hres : resolveAll dl t (sortedScan d t)
      = .ok ⟨[⟨0, t.length - 1, t, t, t⟩], ((t.length - 1 : Nat) : Int),
             [(t, [⟨0, t.length - 1, t, t, t⟩])], false⟩ := by
    rw [hscan]
    unfold resolveAll
    rw [foldE_cons_ok hstep1]
    exact hfold rest hrestb
  have hprodT : productLoop dl [⟨0, t.length - 1, t, t, t⟩]
      = .ok (if gpsLower.contains (pyLower t)
             then ⟨false, false, none⟩
             else ⟨gpsName.any (fun x => isSubstrOf x L),
                   gpsName.all (fun x => !(isSubstrOf x L)),
                   some (gpsName.any (fun x => isSubstrOf x L))⟩) :=
    productLoop_single dl ⟨0, t.length - 1, t, t, t⟩ L h4
  have hrenderN : renderLoop false none t [⟨0, t.length - 1, t, t, t⟩]
      = .ok ⟨[], [], [], 0⟩ := renderLoop_identity none t ⟨0, t.length - 1, t, t, t⟩ rfl
  have hrenderS : renderLoop false (some (gpsName.any (fun x => isSubstrOf x L))) t
      [⟨0, t.length - 1, t, t, t⟩] = .ok ⟨[], [], [], 0⟩ :=
    renderLoop_identity _ t ⟨0, t.length - 1, t, t, t⟩ rfl
  have hscanne : ¬ (scanMatches d t = []) := by
    intro hsc
    rw [hsc] at hmem
    cases hmem
  have hint : replace_text_internal d dl t
      = .ok ⟨t, t, [], some false,
             some (!(gpsLower.contains (pyLower t))
               && gpsName.any (fun x => isSubstrOf x L))⟩ := by
    by_cases hg : pyLower t ∈ gpsLower
    · have hgc : gpsLower.contains (pyLower t) = true := by simpa using hg
      simp [replace_text_internal, hne, hscanne, hres, hprodT, hg, hgc, hrenderN, hslice0]
    · have hgc : gpsLower.contains (pyLower t) = false := by simpa using hg
      simp [replace_text_internal, hne, hscanne, hres, hprodT, hg, hgc, hrenderS, hslice0,
        all_not_eq_not_any]
  unfold replace_text
  rw [if_neg h0]
  simp [h1, h2, foldE, replacePartStep, hne, hint, pyOr_some_false]

/-- C7 witness: a concrete vocabulary mapping "bar" to itself with label
名词; replacing the canonical term "bar" returns it unchanged with an
empty replacements list and both flags false. -/
theorem c7_canonical_identity_witness :
    replace_text [(['b','a','r'], ['b','a','r'])] [(['b','a','r'], nounLabel)]
      ['b','a','r']
      = .ok ⟨['b','a','r'], ['b','a','r'], [], some false, some false⟩ := by
  have h := c7_canonical_identity [(['b','a','r'], ['b','a','r'])]
    [(['b','a','r'], nounLabel)] ['b','a','r'] nounLabel
    (by decide) rfl rfl rfl rfl rfl
  exact h.trans (by rfl)
